import Mathlib

/-!
Verification of the extraction engine of a wiki scraper
(fire-emblem-data-scraper, file
fire_emblem_data_scraper/spiders/characters/characters.py).

The scraper works on parsed HTML documents through XPath queries.  We
embed HTML documents as rose trees (Node) and embed each XPath query of
the source as a selection over the preorder traversal of the tree: an
entry of the traversal carries the node, its chain of proper ancestors
(outermost first) and its following siblings, and a query is a list of
steps (descendant or child axis) matched against the ancestor chain
extended with the node itself.  This matches XPath node-set semantics
for the queries of the source: results come in document order, one
entry per tree position.
-/

/-- An HTML node: an element with a tag, attributes and children, or a
text node. -/
inductive Node where
  | elem (tag : String) (attrs : List (String × String)) (children : List Node)
  | text (s : String)

/-- Substring test on character lists: does the haystack contain the
needle as a contiguous run? -/
def infixOf (needle : List Char) : List Char → Bool
  | [] => needle.isEmpty
  | x :: xs => needle.isPrefixOf (x :: xs) || infixOf needle xs

/-- Embedding of the XPath function contains(haystack, needle) on
strings. -/
def strContains (hay needle : String) : Bool := infixOf needle.data hay.data

/-- Embedding of Python str.lower for the names appearing in image
sources (character names are ASCII on the scraped wiki). -/
def strLower (s : String) : String := ⟨s.data.map Char.toLower⟩

/-- First attribute value bound to a key, as XPath attribute access. -/
def Node.attr : Node → String → Option String
  | .elem _ attrs _, k => (attrs.find? (fun p => p.1 == k)).map (·.2)
  | .text _, _ => none

/-- Tag test: true when the node is an element with the given tag. -/
def Node.isTag (n : Node) (t : String) : Bool :=
  match n with
  | .elem tg _ _ => tg == t
  | .text _ => false

/-- Children of a node (text nodes have none). -/
def Node.childrenL : Node → List Node
  | .elem _ _ cs => cs
  | .text _ => []

/-- Content of a text node. -/
def Node.textVal : Node → Option String
  | .text s => some s
  | .elem _ _ _ => none

/-- Direct text children of a node, in order: the node-set selected by
the XPath step text(). -/
def Node.directTexts (n : Node) : List String := n.childrenL.filterMap Node.textVal

/-- Embedding of the XPath test contains(text(), kw): the string value
of a node-set is the value of its first node, so the test looks only at
the first direct text child. -/
def xpTextContains (n : Node) (kw : String) : Bool :=
  strContains (n.directTexts.headD "") kw

mutual
/-- Embedding of BeautifulSoup get_text on a markup fragment: the
concatenation of all text nodes of the subtree, in reading order. -/
def getText : Node → String
  | .text s => s
  | .elem _ _ cs => getTextList cs

/-- Concatenated text of a forest, left to right. -/
def getTextList : List Node → String
  | [] => ""
  | c :: cs => getText c ++ getTextList cs
end

mutual
/-- All text nodes of a subtree in reading order (specification-side
flattening of a fragment, used to state what get_text computes). -/
def textNodes : Node → List String
  | .text s => [s]
  | .elem _ _ cs => textNodesList cs

/-- All text nodes of a forest in reading order. -/
def textNodesList : List Node → List String
  | [] => []
  | c :: cs => textNodes c ++ textNodesList cs
end

/-- Concatenation of a list of strings, left to right. -/
def concatAll (l : List String) : String := l.foldr (· ++ ·) ""

/-- A step of an XPath location path: descendant axis (written //p) or
child axis (written /p), with a node test p. -/
inductive Step where
  | desc (p : Node → Bool)
  | child (p : Node → Bool)

/-- Matching a list of steps against a chain of nodes (a node preceded
by its ancestors, outermost first).  A descendant step may skip any
number of chain nodes before its test holds; a child step must match
the next chain node; the steps must consume the chain exactly, so the
last step matches the last chain node. -/
def pathMatch : List Step → List Node → Bool
  | [], ns => ns.isEmpty
  | Step.desc p :: ps, ns =>
      match ns with
      | [] => false
      | x :: xs => (p x && pathMatch ps xs) || pathMatch (Step.desc p :: ps) xs
  | Step.child p :: ps, ns =>
      match ns with
      | [] => false
      | x :: xs => p x && pathMatch ps xs

/-- An entry of the document traversal: a node together with its proper
ancestors (outermost first) and its following siblings (the nodes after
it among the children of its parent, in order). -/
structure Entry where
  anc : List Node
  fol : List Node
  node : Node

mutual
/-- Preorder traversal of a node, recording ancestors and following
siblings of every visited node. -/
def nodeWA (anc fol : List Node) : Node → List Entry
  | .text s => ⟨anc, fol, .text s⟩ :: []
  | .elem t a cs => ⟨anc, fol, .elem t a cs⟩ :: listWA (anc ++ [.elem t a cs]) cs

/-- Preorder traversal of a forest of siblings sharing the ancestor
chain anc. -/
def listWA (anc : List Node) : List Node → List Entry
  | [] => []
  | c :: cs => nodeWA anc cs c ++ listWA anc cs
end

/-- All positions of a document, in document order. -/
def docEntries (doc : Node) : List Entry := nodeWA [] [] doc

/-- Embedding of an XPath query on a document: the entries whose
ancestor chain extended with the node matches the steps, in document
order.  This is the node-set returned by response.xpath. -/
def select (steps : List Step) (doc : Node) : List Entry :=
  (docEntries doc).filter (fun e => pathMatch steps (e.anc ++ [e.node]))

/-!
Embedding of CharactersSpider (characters.py).  Each private parser of
the spider becomes a function from a document (and for images, the
already-parsed character name) to the value stored on the item, with
None for a field that the source leaves unset.  Python truthiness of
strings (the empty string is falsy) is embedded explicitly.
-/

/-- Base URL of the scraped site (CharactersSpider.BASE_URL). -/
def BASE_URL : String := "https://fireemblemwiki.org"

/-- Python truthiness of an optional string: present and non-empty. -/
def strTruthy : Option String → Bool
  | some s => !(s == "")
  | none => false

/-- Node test for the listing container div with id mw-pages. -/
def divPages (n : Node) : Bool := n.isTag "div" && n.attr "id" == some "mw-pages"

/-- Node test for the category group div with class mw-category-group. -/
def divGroup (n : Node) : Bool := n.isTag "div" && n.attr "class" == some "mw-category-group"

/-- Node test for a fixed tag. -/
def tagIs (t : String) (n : Node) : Bool := n.isTag t

/-- Node test for an anchor whose text (first direct text node, per the
XPath string value of the text() node-set) contains the word next. -/
def nextAnchor (n : Node) : Bool := n.isTag "a" && xpTextContains n "next"

/-- Node test for a text node. -/
def isTextNode (n : Node) : Bool :=
  match n with
  | .text _ => true
  | .elem _ _ _ => false

/-- Embedding of the query
    //div[@id="mw-pages"]//div[@class="mw-category-group"]//li//a/@href
    of CharactersSpider.parse (getall). -/
def characterLinks (doc : Node) : List String :=
  (select [Step.desc divPages, Step.desc divGroup, Step.desc (tagIs "li"),
      Step.desc (tagIs "a")] doc).filterMap (fun e => e.node.attr "href")

/-- Embedding of the query
    //div[@id="mw-pages"]//a[contains(text(), "next")]/@href
    of CharactersSpider.parse (get, that is the first value). -/
def nextPageLink (doc : Node) : Option String :=
  ((select [Step.desc divPages, Step.desc nextAnchor] doc).filterMap
    (fun e => e.node.attr "href")).head?

/-- Embedding of CharactersSpider.parse: the absolute detail-page URLs
requested for every character link, and the absolute next-page URL when
a truthy next-page link is found. -/
def parseListing (doc : Node) : List String × Option String :=
  (((characterLinks doc).map (fun l => BASE_URL ++ l)),
   if strTruthy (nextPageLink doc) then
     some (BASE_URL ++ (nextPageLink doc).getD "") else none)

/-- Embedding of the query //h1[@id="firstHeading"]/text() (getall). -/
def firstHeadingTexts (doc : Node) : List String :=
  (select [Step.desc (fun n => n.isTag "h1" && n.attr "id" == some "firstHeading"),
      Step.child isTextNode] doc).filterMap (fun e => e.node.textVal)

/-- The name query of CharactersSpider.__parse_name (get). -/
def firstHeadingText (doc : Node) : Option String := (firstHeadingTexts doc).head?

/-- Node test for an anchor with class attribute exactly image. -/
def aImage (n : Node) : Bool := n.isTag "a" && n.attr "class" == some "image"

/-- Node test for the image elements of CharactersSpider.__parse_images:
an img whose src contains the character name, with the original or the
lowercased spelling. -/
def imgCandidate (name : String) (n : Node) : Bool :=
  n.isTag "img" &&
    (strContains (n.attr "src" |>.getD "") name ||
     strContains (n.attr "src" |>.getD "") (strLower name))

/-- Node test for a tab container explicitly displayed, as in the query
of the primary image: div[@class="tab_content" and @style="display:block;"]. -/
def tabDisplayed (n : Node) : Bool :=
  n.isTag "div" && n.attr "class" == some "tab_content" &&
    n.attr "style" == some "display:block;"

/-- Embedding of the primary image query of __parse_images (getall):
the src values of candidate images inside a displayed tab container. -/
def displayedImageSrcs (doc : Node) (name : String) : List String :=
  (select [Step.desc tabDisplayed, Step.desc aImage, Step.desc (imgCandidate name)]
    doc).filterMap (fun e => e.node.attr "src")

/-- The value of primary_image_link before defaulting (get). -/
def primaryImageLink (doc : Node) (name : String) : Option String :=
  (displayedImageSrcs doc name).head?

/-- Embedding of the general candidate query of __parse_images (getall),
before deduplication: //a[@class="image"]//img[...]/@src. -/
def rawImageSrcs (doc : Node) (name : String) : List String :=
  (select [Step.desc aImage, Step.desc (imgCandidate name)] doc).filterMap
    (fun e => e.node.attr "src")

/-- Embedding of OrderedDict.fromkeys iteration: keep each value the
first time it is seen, dropping later repetitions; seen accumulates the
values already kept. -/
def dedupKeysAux (seen : List String) : List String → List String
  | [] => []
  | x :: xs =>
      if x ∈ seen then dedupKeysAux seen xs
      else x :: dedupKeysAux (x :: seen) xs

/-- Deduplication by first occurrence, as
    list(OrderedDict.fromkeys(...)) in __parse_images. -/
def dedupKeys (l : List String) : List String := dedupKeysAux [] l

/-- The deduplicated candidate list image_links of __parse_images. -/
def imageLinks (doc : Node) (name : String) : List String :=
  dedupKeys (rawImageSrcs doc name)

/-- Embedding of Python list.remove: drop the first occurrence of a
value.  The source call never fails, which is proved below: the removed
value is always a member. -/
def removeFirst : List String → String → List String
  | [], _ => []
  | x :: xs, y => if x == y then xs else x :: removeFirst xs y

/-- The primary image link after the defaulting step of __parse_images:
when the displayed-tab query found nothing truthy and candidates exist,
the first candidate becomes primary. -/
def primaryDefaulted (doc : Node) (name : String) : Option String :=
  if !(strTruthy (primaryImageLink doc name)) && !(imageLinks doc name).isEmpty then
    some ((imageLinks doc name).headD "")
  else primaryImageLink doc name

/-- Embedding of CharactersSpider.__parse_images: the primaryImage and
otherImages values stored on the item (None when the source leaves the
field unset).  The maximum number of other images is the configuration
constant MAX_NUM_OTHER_IMAGES, imported from a module outside the
extraction engine; it is passed here as a parameter. -/
def parseImages (maxOther : Nat) (doc : Node) (name : String) :
    Option String × Option (List String) :=
  let primary := primaryDefaulted doc name
  let links :=
    if strTruthy primary then removeFirst (imageLinks doc name) (primary.getD "")
    else imageLinks doc name
  (if strTruthy primary then some (BASE_URL ++ primary.getD "") else none,
   if links.isEmpty then none
   else some ((links.take maxOther).map (fun l => BASE_URL ++ l)))

/-- Node test for a table row whose header cell text contains the label
keyword: tr[th[contains(text(), kw)]]. -/
def labeledRow (kw : String) (n : Node) : Bool :=
  n.isTag "tr" && n.childrenL.any (fun c => c.isTag "th" && xpTextContains c kw)

/-- Embedding of the query //tr[th[contains(text(), "Appearance")]]/td//a/@title
    of CharactersSpider.__parse_appearances (getall). -/
def appearances (doc : Node) : List String :=
  (select [Step.desc (labeledRow "Appearance"), Step.child (tagIs "td"),
      Step.desc (tagIs "a")] doc).filterMap (fun e => e.node.attr "title")

/-- Embedding of CharactersSpider.__parse_appearances: the appearances
value stored on the item. -/
def parseAppearances (doc : Node) : Option (List String) :=
  if (appearances doc).isEmpty then none else some (appearances doc)

/-- Embedding of the query //tr[th[contains(text(), "Title")]]/td//li of
__parse_titles (getall): the list items of the data cell of a matched
row. -/
def titleLiItems (doc : Node) : List Node :=
  (select [Step.desc (labeledRow "Title"), Step.child (tagIs "td"),
      Step.desc (tagIs "li")] doc).map (·.node)

/-- Embedding of the fallback query //tr[th[contains(text(), "Title")]]/td/p
    of __parse_titles (getall): the paragraph children of the data cell
    of a matched row. -/
def titlePItems (doc : Node) : List Node :=
  (select [Step.desc (labeledRow "Title"), Step.child (tagIs "td"),
      Step.child (tagIs "p")] doc).map (·.node)

/-- The items iterated by __parse_titles: the list items, or the
paragraph children when no list item was found (Python or on getall
results). -/
def titleItems (doc : Node) : List Node :=
  if (titleLiItems doc).isEmpty then titlePItems doc else titleLiItems doc

/-- Embedding of CharactersSpider.__parse_titles: each item is
flattened with BeautifulSoup get_text and appended only when non-empty;
the field is set only when the resulting list is non-empty. -/
def parseTitles (doc : Node) : Option (List String) :=
  let titles := ((titleItems doc).map getText).filter (fun t => !(t == ""))
  if titles.isEmpty then none else some titles

/-- The anchors of the data cell of a row labeled Voice, as selected by
the path //tr[th[contains(text(), "Voice")]]/td//a of
__parse_voice_actors, before the sibling predicate. -/
def voiceAnchorEntries (doc : Node) : List Entry :=
  select [Step.desc (labeledRow "Voice"), Step.child (tagIs "td"),
    Step.desc (tagIs "a")] doc

/-- The sibling predicate of __parse_voice_actors:
    [following-sibling::small/text()[contains(., language)]] holds of an
anchor when some later sibling is a small element one of whose direct
text nodes contains the language tag. -/
def followedBySmall (lang : String) (e : Entry) : Bool :=
  e.fol.any (fun s => s.isTag "small" &&
    s.directTexts.any (fun t => strContains t lang))

/-- Embedding of one language pass of __parse_voice_actors (getall on
the trailing text() step): the direct text nodes of every anchor of the
Voice row data cell that satisfies the sibling predicate. -/
def voiceActorsFor (doc : Node) (lang : String) : List String :=
  ((voiceAnchorEntries doc).filter (followedBySmall lang)).flatMap
    (fun e => e.node.directTexts)

/-- The voice actor mapping: a key is present only for a language with
at least one match. -/
structure VoiceActors where
  english : Option (List String)
  japanese : Option (List String)
deriving DecidableEq, Repr

/-- Embedding of CharactersSpider.__parse_voice_actors: the voiceActors
value stored on the item, None when both languages are empty. -/
def parseVoiceActors (doc : Node) : Option VoiceActors :=
  let en := voiceActorsFor doc "English"
  let ja := voiceActorsFor doc "Japanese"
  if en.isEmpty && ja.isEmpty then none
  else some ⟨if en.isEmpty then none else some en,
             if ja.isEmpty then none else some ja⟩

/-- The record produced for one character: a field is None exactly when
the source leaves it unset on the CharacterItem. -/
structure CharacterItem where
  name : Option String := none
  primaryImage : Option String := none
  otherImages : Option (List String) := none
  titles : Option (List String) := none
  appearances : Option (List String) := none
  voiceActors : Option VoiceActors := none
deriving DecidableEq, Repr

/-- Embedding of CharactersSpider.parse_character: None when the name
is missing or empty (Python truthiness), otherwise the record with
every extractor applied. -/
def parseCharacter (maxOther : Nat) (doc : Node) : Option CharacterItem :=
  match firstHeadingText doc with
  | none => none
  | some name =>
      if name == "" then none
      else
        some { name := some name
               primaryImage := (parseImages maxOther doc name).1
               otherImages := (parseImages maxOther doc name).2
               appearances := parseAppearances doc
               titles := parseTitles doc
               voiceActors := parseVoiceActors doc }

/-- Instrumented variant of parse_character, identical to
parseCharacter but also returning the list of helper parsers invoked,
in source order; used to state the short-circuit on a missing name. -/
def parseCharacterTrace (maxOther : Nat) (doc : Node) :
    Option CharacterItem × List String :=
  match firstHeadingText doc with
  | none => (none, ["parse_name"])
  | some name =>
      if name == "" then (none, ["parse_name"])
      else
        (some { name := some name
                primaryImage := (parseImages maxOther doc name).1
                otherImages := (parseImages maxOther doc name).2
                appearances := parseAppearances doc
                titles := parseTitles doc
                voiceActors := parseVoiceActors doc },
         ["parse_name", "parse_images", "parse_appearances", "parse_titles",
          "parse_voice_actors"])

/-!
Specification-side reformulations.  Each one restates a query of the
spider in the vocabulary of the specification text (ancestor chains and
sibling positions rather than location paths); the claim theorems prove
them equal to the embedded queries, or exhibit where they differ.
-/

/-- Existence of a subsequence of the chain satisfying the tests in
order (the meaning of a sequence of descendant steps over ancestors). -/
def subseqMatch : List (Node → Bool) → List Node → Bool
  | [], _ => true
  | _ :: _, [] => false
  | p :: ps, x :: xs => (p x && subseqMatch ps xs) || subseqMatch (p :: ps) xs

/-- Adjacent pair in the chain: some node satisfying p immediately
followed by one satisfying q (the meaning of a child step between two
descendant steps). -/
def adjPairB (p q : Node → Bool) : List Node → Bool
  | [] => false
  | [_] => false
  | a :: b :: rest => (p a && q b) || adjPairB p q (b :: rest)

/-- The last two chain nodes satisfy p and q (the meaning of two final
child steps under a descendant prefix). -/
def lastTwoB (p q : Node → Bool) : List Node → Bool
  | [] => false
  | [_] => false
  | [a, b] => p a && q b
  | _ :: b :: c :: rest => lastTwoB p q (b :: c :: rest)

/-- Specification reading of the detail links: the href of every anchor
lying inside a list item inside the category group inside the listing
container, in document order. -/
def detailAnchorHrefs (doc : Node) : List String :=
  ((docEntries doc).filter (fun e =>
      e.node.isTag "a" &&
        subseqMatch [divPages, divGroup, tagIs "li"] e.anc)).filterMap
    (fun e => e.node.attr "href")

/-- The claim reading of the detail links of C4: the href of every
anchor inside the category group container, with no requirement of an
enclosing list item. -/
def claimDetailHrefs (doc : Node) : List String :=
  ((docEntries doc).filter (fun e =>
      e.node.isTag "a" && subseqMatch [divPages, divGroup] e.anc)).filterMap
    (fun e => e.node.attr "href")

/-- Specification reading of the next-page candidates: the href of
every anchor under the listing container whose leading text contains
the word next, in document order. -/
def nextHrefs (doc : Node) : List String :=
  ((docEntries doc).filter (fun e =>
      nextAnchor e.node && e.anc.any divPages)).filterMap
    (fun e => e.node.attr "href")

/-- Specification reading of the appearances: the title attribute of
every link having a data-cell ancestor whose parent is a row labeled
Appearance, in document order. -/
def appearancesSpec (doc : Node) : List String :=
  ((docEntries doc).filter (fun e =>
      e.node.isTag "a" &&
        adjPairB (labeledRow "Appearance") (tagIs "td") e.anc)).filterMap
    (fun e => e.node.attr "title")

/-- Specification reading of the fallback title items: the paragraph
elements whose parent is a data cell whose own parent is a row labeled
Title; paragraphs nested deeper inside the cell do not qualify. -/
def titlePSpec (doc : Node) : List Node :=
  (((docEntries doc).filter (fun e =>
      e.node.isTag "p" &&
        lastTwoB (labeledRow "Title") (tagIs "td") e.anc))).map (·.node)

/-- Specification reading of one voice-actor pass as the source
implements it: the text of every anchor below a data cell of a row
labeled Voice that is followed, anywhere later among its siblings, by a
small element one of whose direct text nodes contains the language
tag. -/
def voiceActorsSib (doc : Node) (lang : String) : List String :=
  (((docEntries doc).filter (fun e =>
      e.node.isTag "a" &&
        adjPairB (labeledRow "Voice") (tagIs "td") e.anc &&
        followedBySmall lang e))).flatMap (fun e => e.node.directTexts)

/-- The immediacy predicate of claim C3: the very next sibling is a
small element whose text contains the language tag. -/
def immediatelyFollowedBySmall (lang : String) (e : Entry) : Bool :=
  match e.fol.head? with
  | some s => s.isTag "small" && strContains (getText s) lang
  | none => false

/-- The claim reading of one voice-actor pass of C3: only anchors
immediately followed by a matching small annotation are collected. -/
def voiceActorsImmediate (doc : Node) (lang : String) : List String :=
  ((voiceAnchorEntries doc).filter (immediatelyFollowedBySmall lang)).flatMap
    (fun e => e.node.directTexts)

/-!
Concrete documents used by witnesses and counterexamples.  They follow
the markup shapes of the unit tests of the repository.
-/

/-- A character page with one displayed-tab image and three candidate
images, one of them a duplicate source. -/
def dupImagesDoc : Node :=
  .elem "html" [] [
    .elem "body" [] [
      .elem "a" [("class", "image")] [.elem "img" [("src", "/b-ike.png")] []],
      .elem "a" [("class", "image")] [.elem "img" [("src", "/a-ike.png")] []],
      .elem "a" [("class", "image")] [.elem "img" [("src", "/b-ike.png")] []],
      .elem "a" [("class", "image")] [.elem "img" [("src", "/c-ike.png")] []]]]

/-- A character page with a single candidate image and no displayed
tab. -/
def reinhardtDoc : Node :=
  .elem "html" [] [
    .elem "body" [] [
      .elem "h1" [("id", "firstHeading")] [.text "Reinhardt"],
      .elem "div" [] [
        .elem "a" [("class", "image")]
          [.elem "img" [("src", "/thracia776-reinhardt.jpg")] []]]]]

/-- A character page whose title is split between a leading text node
and a child link element. -/
def splitTitleDoc : Node :=
  .elem "html" [] [
    .elem "body" [] [
      .elem "table" [] [
        .elem "tr" [] [
          .elem "th" [] [.text "Title(s)"],
          .elem "td" [] [
            .elem "ul" [] [
              .elem "li" [] [.text "Prince of ",
                .elem "a" [("href", "/Altea")] [.text "Altea"]]]]]]]]

/-- A voice row where two anchors precede one small annotation: only
the second anchor is immediately followed by the annotation, but both
have it as a later sibling. -/
def vaSiblingDoc : Node :=
  .elem "html" [] [
    .elem "body" [] [
      .elem "table" [] [
        .elem "tr" [] [
          .elem "th" [] [.text "Voiced by"],
          .elem "td" [] [
            .elem "a" [("href", "/X")] [.text "X"],
            .elem "a" [("href", "/Y")] [.text "Y"],
            .elem "small" [] [.text "(English, Three Houses)"]]]]]]

/-- A listing page whose category group contains an anchor that is not
inside a list item. -/
def groupAnchorDoc : Node :=
  .elem "html" [] [
    .elem "body" [] [
      .elem "div" [("id", "mw-pages")] [
        .elem "div" [("class", "mw-category-group")] [
          .elem "a" [("href", "/Corrin")] [.text "Corrin"]]]]]

/-- An appearances row with one link lacking a title attribute (but
with visible text) and one link carrying a title attribute. -/
def appearancesDoc : Node :=
  .elem "html" [] [
    .elem "body" [] [
      .elem "table" [] [
        .elem "tr" [] [
          .elem "th" [] [.text "Appearance(s)"],
          .elem "td" [] [
            .elem "a" [("href", "/fe16")] [.text "no title attribute"],
            .elem "a" [("title", "Fire Emblem: Three Houses"), ("href", "/fe16")]
              [.text "FE16"]]]]]]

/-- A titles row whose data cell holds a paragraph nested inside a div,
with no list item anywhere. -/
def nestedParagraphDoc : Node :=
  .elem "html" [] [
    .elem "body" [] [
      .elem "table" [] [
        .elem "tr" [] [
          .elem "th" [] [.text "Title"],
          .elem "td" [] [
            .elem "div" [] [.elem "p" [] [.text "Deep title"]]]]]]]

/-- A titles row whose data cell holds a paragraph as a direct child,
with no list item anywhere. -/
def directParagraphDoc : Node :=
  .elem "html" [] [
    .elem "body" [] [
      .elem "table" [] [
        .elem "tr" [] [
          .elem "th" [] [.text "Title"],
          .elem "td" [] [
            .elem "p" [] [.text "Shallow title"]]]]]]

/-!
String lemmas used by the claims: append on strings is cancellative on
the left, and a string with a non-empty substring is non-empty.
-/

/-- Strings with equal character data are equal. -/
theorem strData_inj : ∀ {a b : String}, a.data = b.data → a = b
  | ⟨_⟩, ⟨_⟩, h => congrArg String.mk h

/-- Character data of an append. -/
theorem strAppend_data (a b : String) : (a ++ b).data = a.data ++ b.data := by
  cases a
  cases b
  rfl

/-- Appending a fixed prefix is injective. -/
theorem strAppend_left_cancel {a b c : String} (h : a ++ b = a ++ c) : b = c := by
  apply strData_inj
  have hd := congrArg String.data h
  rw [strAppend_data, strAppend_data] at hd
  exact List.append_cancel_left hd

/-- A non-empty needle is never contained in the empty string. -/
theorem strContains_hay_ne_empty {s t : String} (h : strContains s t = true)
    (ht : t ≠ "") : s ≠ "" := by
  intro hs
  apply ht
  subst hs
  cases t with
  | mk d =>
      cases d with
      | nil => rfl
      | cons c cs => simp [strContains, infixOf, List.isEmpty] at h

/-- Lowercasing preserves non-emptiness. -/
theorem strLower_ne_empty {s : String} (h : s ≠ "") : strLower s ≠ "" := by
  intro hl
  apply h
  have hd : s.data.map Char.toLower = [] := congrArg String.data hl
  exact strData_inj (List.map_eq_nil_iff.mp hd)

/-!
Characterizations of pathMatch for the step shapes used by the spider
queries.  They restate a location path as an explicit condition on the
ancestor chain of the selected node: the existence of a nested chain of
matching ancestors for descendant steps, adjacency for child steps.
-/

/-- A path of one descendant step matches a chain exactly when the test
holds of the final node. -/
theorem pathMatch_one_desc (r : Node → Bool) :
    ∀ (l : List Node) (n : Node), pathMatch [Step.desc r] (l ++ [n]) = r n := by
  intro l
  induction l with
  | nil => intro n; simp [pathMatch]
  | cons x xs ih => intro n; simp [pathMatch, ih]

/-- A non-empty all-descendant path never matches the empty chain. -/
theorem pathMatch_desc_nil (ps : List (Node → Bool)) (q : Node → Bool) :
    pathMatch (ps.map Step.desc ++ [Step.desc q]) [] = false := by
  cases ps with
  | nil => simp [pathMatch]
  | cons p ps => simp [pathMatch]

/-- Steps that are all descendant steps match a chain exactly when the
final test holds of the final node and the earlier tests hold of a
subsequence of the ancestors, in order. -/
theorem pathMatch_desc_chain :
    ∀ (anc : List Node) (ps : List (Node → Bool)) (q : Node → Bool) (n : Node),
      pathMatch (ps.map Step.desc ++ [Step.desc q]) (anc ++ [n]) =
        (subseqMatch ps anc && q n) := by
  intro anc
  induction anc with
  | nil =>
      intro ps q n
      cases ps with
      | nil => simp [pathMatch, subseqMatch]
      | cons p ps =>
          simp [pathMatch, subseqMatch, pathMatch_desc_nil]
  | cons x xs ih =>
      intro ps q n
      cases ps with
      | nil =>
          have h := ih [] q n
          simp only [List.map_nil, List.nil_append] at h ⊢
          simp [pathMatch, subseqMatch, h]
      | cons p ps =>
          have h1 := ih ps q n
          have h2 := ih (p :: ps) q n
          simp only [List.map_cons, List.cons_append, pathMatch, List.append_eq] at h2 ⊢
          rw [h1, h2]
          simp only [subseqMatch]
          cases q n <;> cases p x <;> cases subseqMatch ps xs <;>
            cases subseqMatch (p :: ps) xs <;> simp

/-- A path of the shape descendant, child, descendant (as in the row,
data cell, element queries of the field extractors) matches exactly
when the final test holds of the node and the chain has an adjacent
pair satisfying the first two tests. -/
theorem pathMatch_desc_child_desc (p q r : Node → Bool) :
    ∀ (anc : List Node) (n : Node),
      pathMatch [Step.desc p, Step.child q, Step.desc r] (anc ++ [n]) =
        (adjPairB p q anc && r n) := by
  intro anc
  induction anc with
  | nil => intro n; simp [pathMatch, adjPairB]
  | cons x xs ih =>
      intro n
      cases xs with
      | nil => simp [pathMatch, adjPairB]
      | cons y ys =>
          have h1 := ih n
          simp only [List.cons_append, pathMatch, List.append_eq] at h1 ⊢
          rw [h1, pathMatch_one_desc]
          simp only [adjPairB]
          cases r n <;> cases p x <;> cases q y <;>
            cases adjPairB p q (y :: ys) <;> simp

/-- A path of the shape descendant, child, child (as in the fallback
paragraph query of the titles extractor) matches exactly when the final
test holds of the node and the last two chain nodes satisfy the first
two tests. -/
theorem pathMatch_desc_child_child (p q s : Node → Bool) :
    ∀ (anc : List Node) (n : Node),
      pathMatch [Step.desc p, Step.child q, Step.child s] (anc ++ [n]) =
        (lastTwoB p q anc && s n) := by
  intro anc
  induction anc with
  | nil => intro n; simp [pathMatch, lastTwoB]
  | cons x xs ih =>
      intro n
      cases xs with
      | nil => simp [pathMatch, lastTwoB]
      | cons y ys =>
          have h1 := ih n
          cases ys with
          | nil =>
              simp only [List.cons_append, List.nil_append, pathMatch,
                List.append_eq, List.isEmpty] at h1 ⊢
              rw [h1]
              simp only [lastTwoB]
              cases s n <;> cases p x <;> cases q y <;> simp
          | cons z zs =>
              simp only [List.cons_append, pathMatch, List.append_eq] at h1 ⊢
              rw [h1]
              simp only [lastTwoB]
              cases s n <;> cases p x <;> cases q y <;> cases s z <;>
                cases lastTwoB p q (y :: z :: zs) <;> simp

/-- Extending the chain on the left preserves a subsequence match. -/
theorem subseqMatch_cons (ps : List (Node → Bool)) (x : Node) (l : List Node)
    (h : subseqMatch ps l = true) : subseqMatch ps (x :: l) = true := by
  cases ps with
  | nil => simp [subseqMatch]
  | cons p ps => simp [subseqMatch, h]

/-- Dropping the leading test of a subsequence match keeps it valid. -/
theorem subseqMatch_tail (ps : List (Node → Bool)) (p : Node → Bool) :
    ∀ (l : List Node), subseqMatch (p :: ps) l = true → subseqMatch ps l = true := by
  intro l
  induction l with
  | nil => intro h; simp [subseqMatch] at h
  | cons x xs ih =>
      intro h
      simp only [subseqMatch, Bool.or_eq_true, Bool.and_eq_true] at h
      cases h with
      | inl h => exact subseqMatch_cons ps x xs h.2
      | inr h => exact subseqMatch_cons ps x xs (ih h)

/-- A single descendant constraint over the ancestors is the any test. -/
theorem subseqMatch_singleton (p : Node → Bool) :
    ∀ (l : List Node), subseqMatch [p] l = l.any p := by
  intro l
  induction l with
  | nil => simp [subseqMatch]
  | cons x xs ih => simp [subseqMatch, ih, List.any_cons]

/-!
Properties of the first-seen deduplication and of list removal, used by
the image selection claims.
-/

/-- Membership in the deduplication accumulator pass: a value is kept
exactly when it occurs in the input and was not already seen. -/
theorem mem_dedupKeysAux (s : String) :
    ∀ (l seen : List String), s ∈ dedupKeysAux seen l ↔ s ∈ l ∧ s ∉ seen := by
  intro l
  induction l with
  | nil => intro seen; simp [dedupKeysAux]
  | cons x xs ih =>
      intro seen
      cases Decidable.em (x ∈ seen) with
      | inl hx =>
          rw [dedupKeysAux, if_pos hx, ih seen]
          constructor
          · exact fun h => ⟨List.mem_cons_of_mem x h.1, h.2⟩
          · rintro ⟨hmem, hns⟩
            rcases List.mem_cons.mp hmem with he | hm
            · exact absurd hx (he ▸ hns)
            · exact ⟨hm, hns⟩
      | inr hx =>
          rw [dedupKeysAux, if_neg hx]
          rw [List.mem_cons, ih (x :: seen)]
          constructor
          · rintro (he | ⟨hm, hns⟩)
            · subst he; exact ⟨List.mem_cons_self s xs, hx⟩
            · exact ⟨List.mem_cons_of_mem x hm,
                fun hs => hns (List.mem_cons_of_mem x hs)⟩
          · rintro ⟨hmem, hns⟩
            rcases List.mem_cons.mp hmem with he | hm
            · exact Or.inl he
            · cases Decidable.em (s = x) with
              | inl he => exact Or.inl he
              | inr hne =>
                  exact Or.inr ⟨hm, fun hs => (List.mem_cons.mp hs).elim hne hns⟩

/-- The deduplication pass returns a list without duplicates. -/
theorem nodup_dedupKeysAux :
    ∀ (l seen : List String), (dedupKeysAux seen l).Nodup := by
  intro l
  induction l with
  | nil => intro seen; simp [dedupKeysAux]
  | cons x xs ih =>
      intro seen
      cases Decidable.em (x ∈ seen) with
      | inl hx => rw [dedupKeysAux, if_pos hx]; exact ih seen
      | inr hx =>
          rw [dedupKeysAux, if_neg hx]
          refine List.nodup_cons.mpr ⟨?_, ih (x :: seen)⟩
          intro hmem
          exact ((mem_dedupKeysAux x xs (x :: seen)).mp hmem).2
            (List.mem_cons_self x seen)

/-- The deduplication pass preserves the relative order of first
occurrences. -/
theorem indexOf_dedupKeysAux_mono :
    ∀ (l seen : List String) (s t : String), s ∈ l → t ∈ l → s ∉ seen → t ∉ seen →
      ((dedupKeysAux seen l).indexOf s ≤ (dedupKeysAux seen l).indexOf t ↔
        l.indexOf s ≤ l.indexOf t) := by
  intro l
  induction l with
  | nil => intro seen s t hs; simp at hs
  | cons x xs ih =>
      intro seen s t hs ht hsn htn
      cases Decidable.em (x ∈ seen) with
      | inl hx =>
          have hsx : s ≠ x := fun h => hsn (h ▸ hx)
          have htx : t ≠ x := fun h => htn (h ▸ hx)
          rw [dedupKeysAux, if_pos hx]
          rw [ih seen s t ((List.mem_cons.mp hs).resolve_left hsx)
            ((List.mem_cons.mp ht).resolve_left htx) hsn htn]
          rw [List.indexOf_cons_ne _ (Ne.symm hsx), List.indexOf_cons_ne _ (Ne.symm htx)]
          exact ⟨Nat.succ_le_succ, Nat.le_of_succ_le_succ⟩
      | inr hx =>
          rw [dedupKeysAux, if_neg hx]
          cases Decidable.em (s = x) with
          | inl hsx =>
              subst hsx
              simp [List.indexOf_cons_self]
          | inr hsx =>
              cases Decidable.em (t = x) with
              | inl htx =>
                  subst htx
                  rw [List.indexOf_cons_ne _ (Ne.symm hsx),
                    List.indexOf_cons_ne _ (Ne.symm hsx), List.indexOf_cons_self,
                    List.indexOf_cons_self]
                  simp
              | inr htx =>
                  have hs2 : s ∈ xs := (List.mem_cons.mp hs).resolve_left hsx
                  have ht2 : t ∈ xs := (List.mem_cons.mp ht).resolve_left htx
                  have hsn2 : s ∉ x :: seen :=
                    fun h => (List.mem_cons.mp h).elim hsx hsn
                  have htn2 : t ∉ x :: seen :=
                    fun h => (List.mem_cons.mp h).elim htx htn
                  rw [List.indexOf_cons_ne _ (Ne.symm hsx),
                    List.indexOf_cons_ne _ (Ne.symm htx),
                    List.indexOf_cons_ne _ (Ne.symm hsx),
                    List.indexOf_cons_ne _ (Ne.symm htx)]
                  rw [Nat.succ_le_succ_iff, Nat.succ_le_succ_iff]
                  exact ih (x :: seen) s t hs2 ht2 hsn2 htn2

/-- Removing a value from a list without duplicates removes every
occurrence of it. -/
theorem not_mem_removeFirst_self :
    ∀ (l : List String), l.Nodup → ∀ a, a ∉ removeFirst l a := by
  intro l
  induction l with
  | nil => intro _ a h; simp [removeFirst] at h
  | cons x xs ih =>
      intro hnd a
      rw [removeFirst]
      cases Decidable.em (x = a) with
      | inl hxa =>
          rw [if_pos (beq_iff_eq.mpr hxa)]
          subst hxa
          exact (List.nodup_cons.mp hnd).1
      | inr hxa =>
          rw [if_neg (fun h => hxa (eq_of_beq h))]
          intro hmem
          rcases List.mem_cons.mp hmem with he | hm
          · exact hxa he.symm
          · exact ih (List.nodup_cons.mp hnd).2 a hm

/-- The default head of a non-empty list is a member. -/
theorem headD_mem {l : List String} (h : l.isEmpty = false) : l.headD "" ∈ l := by
  cases l with
  | nil => simp at h
  | cons x xs => exact List.mem_cons_self x xs

/-- Every source of the displayed-tab image query is also a source of
the general candidate query: the displayed-tab path only adds one more
descendant constraint. -/
theorem displayed_subset_raw (doc : Node) (name : String) (s : String)
    (h : s ∈ displayedImageSrcs doc name) : s ∈ rawImageSrcs doc name := by
  simp only [displayedImageSrcs, rawImageSrcs, select, List.mem_filterMap,
    List.mem_filter] at h ⊢
  obtain ⟨e, ⟨he, hp⟩, hsrc⟩ := h
  refine ⟨e, ⟨he, ?_⟩, hsrc⟩
  have hp2 : (subseqMatch [tabDisplayed, aImage] e.anc &&
      imgCandidate name e.node) = true :=
    (pathMatch_desc_chain e.anc [tabDisplayed, aImage] (imgCandidate name)
      e.node).symm.trans hp
  rw [Bool.and_eq_true] at hp2
  have hsub := subseqMatch_tail [aImage] tabDisplayed e.anc hp2.1
  exact (pathMatch_desc_chain e.anc [aImage] (imgCandidate name) e.node).trans
    (by rw [Bool.and_eq_true]; exact ⟨hsub, hp2.2⟩)

/-- Membership in the deduplicated candidate list is membership in the
raw candidate sources. -/
theorem mem_imageLinks_iff (doc : Node) (name : String) (s : String) :
    s ∈ imageLinks doc name ↔ s ∈ rawImageSrcs doc name := by
  rw [imageLinks, dedupKeys, mem_dedupKeysAux]
  simp

/-- The deduplicated candidate list has no duplicates. -/
theorem imageLinks_nodup (doc : Node) (name : String) :
    (imageLinks doc name).Nodup :=
  nodup_dedupKeysAux (rawImageSrcs doc name) []

/-!
Claim theorems.
-/

/-- Claim C1: for every input document whose primary heading element
has no non-empty text, parse_character returns None, and the
instrumented trace records that only name parsing ran: the image
selector and the field extractors are not invoked. -/
theorem parse_character_no_heading_short_circuit (maxOther : Nat) (doc : Node)
    (h : ∀ t ∈ firstHeadingTexts doc, t = "") :
    parseCharacter maxOther doc = none ∧
      parseCharacterTrace maxOther doc = (none, ["parse_name"]) := by
  cases hft : firstHeadingTexts doc with
  | nil =>
      have hh : firstHeadingText doc = none := by
        rw [firstHeadingText, hft]
        rfl
      constructor <;> simp [parseCharacter, parseCharacterTrace, hh]
  | cons t ts =>
      have ht : t = "" := h t (by rw [hft]; exact List.mem_cons_self t ts)
      have hh : firstHeadingText doc = some "" := by
        rw [firstHeadingText, hft, ht]
        rfl
      constructor <;> simp [parseCharacter, parseCharacterTrace, hh]

/-- Witness for claim C1 at a concrete document without a heading. -/
theorem parse_character_no_heading_short_circuit_witness :
    (∀ t ∈ firstHeadingTexts (.elem "html" [] [.elem "body" [] [.elem "div" []
        [.text "nothing"]]]), t = "") ∧
      parseCharacterTrace 5 (.elem "html" [] [.elem "body" [] [.elem "div" []
        [.text "nothing"]]]) = (none, ["parse_name"]) :=
  ⟨by decide,
   (parse_character_no_heading_short_circuit 5 (.elem "html" [] [.elem "body" []
     [.elem "div" [] [.text "nothing"]]]) (by decide)).2⟩

/-- Claim C9: the primary image chosen by __parse_images, whether it
comes from the displayed-tab query or from defaulting to the first
candidate, is always a member of the deduplicated candidate list, so
the subsequent image_links.remove call always finds its argument and
image selection never raises. -/
theorem chosen_primary_mem_candidates (doc : Node) (name : String)
    (h : strTruthy (primaryDefaulted doc name) = true) :
    (primaryDefaulted doc name).getD "" ∈ imageLinks doc name := by
  rw [primaryDefaulted] at h ⊢
  cases hc : (!strTruthy (primaryImageLink doc name) &&
      !(imageLinks doc name).isEmpty) with
  | true =>
      rw [if_pos rfl]
      simp only [Bool.and_eq_true, Bool.not_eq_true'] at hc
      simp only [Option.getD_some]
      exact headD_mem hc.2
  | false =>
      rw [hc] at h
      rw [if_neg Bool.false_ne_true] at h ⊢
      cases hp : primaryImageLink doc name with
      | none => rw [hp] at h; simp [strTruthy] at h
      | some s =>
          simp only [Option.getD_some]
          have hmem : s ∈ displayedImageSrcs doc name :=
            List.mem_of_mem_head? (by rw [← primaryImageLink, hp]; rfl)
          exact (mem_imageLinks_iff doc name s).mpr
            (displayed_subset_raw doc name s hmem)

/-- Witness for claim C9 at a concrete document with a displayed tab. -/
theorem chosen_primary_mem_candidates_witness :
    strTruthy (primaryDefaulted (.elem "html" [] [.elem "body" [] [
      .elem "div" [("class", "tab_content"), ("style", "display:block;")] [
        .elem "a" [("class", "image")] [.elem "img" [("src", "/a-ike.png")] []]],
      .elem "a" [("class", "image")] [.elem "img" [("src", "/b-ike.png")] []]]])
        "Ike") = true ∧
    (primaryDefaulted (.elem "html" [] [.elem "body" [] [
      .elem "div" [("class", "tab_content"), ("style", "display:block;")] [
        .elem "a" [("class", "image")] [.elem "img" [("src", "/a-ike.png")] []]],
      .elem "a" [("class", "image")] [.elem "img" [("src", "/b-ike.png")] []]]])
        "Ike").getD "" ∈
      imageLinks (.elem "html" [] [.elem "body" [] [
        .elem "div" [("class", "tab_content"), ("style", "display:block;")] [
          .elem "a" [("class", "image")] [.elem "img" [("src", "/a-ike.png")] []]],
        .elem "a" [("class", "image")] [.elem "img" [("src", "/b-ike.png")] []]]])
        "Ike" :=
  ⟨by decide,
   chosen_primary_mem_candidates (.elem "html" [] [.elem "body" [] [
     .elem "div" [("class", "tab_content"), ("style", "display:block;")] [
       .elem "a" [("class", "image")] [.elem "img" [("src", "/a-ike.png")] []]],
     .elem "a" [("class", "image")] [.elem "img" [("src", "/b-ike.png")] []]]])
     "Ike" (by decide)⟩

/-- Claim C2: the otherImages sequence produced by image selection
never contains the chosen primaryImage, and its length never exceeds
the configured maximum.  The configuration constant MAX_NUM_OTHER_IMAGES
lives outside the extraction engine, so the statement holds for every
value of the parameter. -/
theorem otherImages_exclude_primary_and_capped (maxOther : Nat) (doc : Node)
    (name u : String) (l : List String) :
    ((parseImages maxOther doc name).1 = some u →
      (parseImages maxOther doc name).2 = some l → u ∉ l) ∧
    ((parseImages maxOther doc name).2 = some l → l.length ≤ maxOther) := by
  constructor
  · intro h1 h2 hmem
    cases hP : strTruthy (primaryDefaulted doc name) with
    | false => simp [parseImages, hP] at h1
    | true =>
        simp only [parseImages, hP, if_pos] at h1 h2
        have hu : BASE_URL ++ (primaryDefaulted doc name).getD "" = u :=
          Option.some.inj h1
        cases hE : (removeFirst (imageLinks doc name)
            ((primaryDefaulted doc name).getD "")).isEmpty with
        | true => rw [hE] at h2; simp at h2
        | false =>
            rw [hE] at h2
            simp only [Bool.false_eq_true, if_false] at h2
            have hl := Option.some.inj h2
            rw [← hl] at hmem
            obtain ⟨y, hy, hyu⟩ := List.mem_map.mp hmem
            have hy2 : y ∈ removeFirst (imageLinks doc name)
                ((primaryDefaulted doc name).getD "") :=
              List.mem_of_mem_take hy
            have hyp : y = (primaryDefaulted doc name).getD "" :=
              strAppend_left_cancel (hyu.trans hu.symm)
            rw [hyp] at hy2
            exact not_mem_removeFirst_self (imageLinks doc name)
              (imageLinks_nodup doc name) _ hy2
  · intro h2
    simp only [parseImages] at h2
    cases hE : (if strTruthy (primaryDefaulted doc name) = true then
        removeFirst (imageLinks doc name) ((primaryDefaulted doc name).getD "")
      else imageLinks doc name).isEmpty with
    | true => rw [hE] at h2; simp at h2
    | false =>
        rw [hE] at h2
        simp only [Bool.false_eq_true, if_false] at h2
        have hl := Option.some.inj h2
        rw [← hl, List.length_map, List.length_take]
        exact Nat.min_le_left _ _

/-- Witness for claim C2 at a concrete document with three distinct
candidate sources. -/
theorem otherImages_exclude_primary_and_capped_witness :
    (parseImages 2 dupImagesDoc "Ike").1 =
      some "https://fireemblemwiki.org/b-ike.png" ∧
    (parseImages 2 dupImagesDoc "Ike").2 =
      some ["https://fireemblemwiki.org/a-ike.png",
            "https://fireemblemwiki.org/c-ike.png"] ∧
    "https://fireemblemwiki.org/b-ike.png" ∉
      ["https://fireemblemwiki.org/a-ike.png",
       "https://fireemblemwiki.org/c-ike.png"] ∧
    (["https://fireemblemwiki.org/a-ike.png",
      "https://fireemblemwiki.org/c-ike.png"] : List String).length ≤ 2 :=
  ⟨by decide, by decide,
   (otherImages_exclude_primary_and_capped 2 dupImagesDoc "Ike"
     "https://fireemblemwiki.org/b-ike.png"
     ["https://fireemblemwiki.org/a-ike.png",
      "https://fireemblemwiki.org/c-ike.png"]).1 (by decide) (by decide),
   (otherImages_exclude_primary_and_capped 2 dupImagesDoc "Ike"
     "https://fireemblemwiki.org/b-ike.png"
     ["https://fireemblemwiki.org/a-ike.png",
      "https://fireemblemwiki.org/c-ike.png"]).2 (by decide)⟩

/-- Candidate sources are non-empty strings whenever the subject name
is non-empty, because a candidate source must contain the name. -/
theorem mem_rawImageSrcs_ne_empty (doc : Node) (name : String)
    (hname : name ≠ "") (s : String) (h : s ∈ rawImageSrcs doc name) :
    s ≠ "" := by
  simp only [rawImageSrcs, select, List.mem_filterMap, List.mem_filter] at h
  obtain ⟨e, ⟨_, hp⟩, hsrc⟩ := h
  have hp2 : (subseqMatch [aImage] e.anc && imgCandidate name e.node) = true :=
    (pathMatch_desc_chain e.anc [aImage] (imgCandidate name) e.node).symm.trans hp
  rw [Bool.and_eq_true] at hp2
  have hc := hp2.2
  simp only [imgCandidate, hsrc, Option.getD_some, Bool.and_eq_true,
    Bool.or_eq_true] at hc
  rcases hc.2 with hc2 | hc2
  · exact strContains_hay_ne_empty hc2 hname
  · exact strContains_hay_ne_empty hc2 (strLower_ne_empty hname)

/-- Claim C5: when candidates exist but none lies inside a displayed
tab container, the first candidate in document order becomes the
primary image; with exactly one candidate the otherImages field is
absent rather than an empty list.  The name is the character name
parsed by the assembler, which only invokes the image selector with a
truthy (non-empty) name. -/
theorem default_primary_first_candidate (maxOther : Nat) (doc : Node)
    (name : String) (hname : name ≠ "")
    (hdisp : displayedImageSrcs doc name = [])
    (hne : imageLinks doc name ≠ []) :
    (parseImages maxOther doc name).1 =
      some (BASE_URL ++ (imageLinks doc name).headD "") ∧
    (∀ s, imageLinks doc name = [s] →
      parseImages maxOther doc name = (some (BASE_URL ++ s), none)) := by
  have hie : (imageLinks doc name).isEmpty = false := by
    cases h2 : imageLinks doc name with
    | nil => exact absurd h2 hne
    | cons x xs => rfl
  have hheadmem : (imageLinks doc name).headD "" ∈ imageLinks doc name :=
    headD_mem hie
  have hhead : (imageLinks doc name).headD "" ≠ "" :=
    mem_rawImageSrcs_ne_empty doc name hname _
      ((mem_imageLinks_iff doc name _).mp hheadmem)
  have hpl : primaryImageLink doc name = none := by
    rw [primaryImageLink, hdisp]
    rfl
  have hpd : primaryDefaulted doc name =
      some ((imageLinks doc name).headD "") := by
    rw [primaryDefaulted, hpl, hie]
    simp [strTruthy]
  have htr2 : strTruthy (some ((imageLinks doc name).headD "")) = true := by
    rw [strTruthy.eq_def]
    simp only [Bool.not_eq_true', beq_eq_false_iff_ne]
    exact hhead
  constructor
  · simp only [parseImages, hpd]
    simp only [htr2]
    simp
  · intro s hs
    have hheads : (imageLinks doc name).headD "" = s := by rw [hs]; rfl
    have hs2 : s ≠ "" := by rw [← hheads]; exact hhead
    rw [parseImages, hpd, hs]
    simp [strTruthy, removeFirst, hs2]

/-- Witness for claim C5 at a concrete document with exactly one
candidate image and no displayed tab. -/
theorem default_primary_first_candidate_witness :
    "Reinhardt" ≠ "" ∧
    displayedImageSrcs reinhardtDoc "Reinhardt" = [] ∧
    imageLinks reinhardtDoc "Reinhardt" ≠ [] ∧
    imageLinks reinhardtDoc "Reinhardt" = ["/thracia776-reinhardt.jpg"] ∧
    parseImages 8 reinhardtDoc "Reinhardt" =
      (some (BASE_URL ++ "/thracia776-reinhardt.jpg"), none) :=
  ⟨by decide, by decide, by decide, by decide,
   (default_primary_first_candidate 8 reinhardtDoc "Reinhardt" (by decide)
     (by decide) (by decide)).2 "/thracia776-reinhardt.jpg" (by decide)⟩

/-- Claim C6: the candidate list is deduplicated by source value with
first-seen order preserved: membership is unchanged, each raw source
occurs exactly once, and the relative order of candidates agrees with
the relative order of their first occurrences in the raw query
results. -/
theorem candidates_dedup_first_seen (doc : Node) (name : String) :
    (∀ s, s ∈ imageLinks doc name ↔ s ∈ rawImageSrcs doc name) ∧
    (imageLinks doc name).Nodup ∧
    (∀ s, s ∈ rawImageSrcs doc name → (imageLinks doc name).count s = 1) ∧
    (∀ s t, s ∈ rawImageSrcs doc name → t ∈ rawImageSrcs doc name →
      ((imageLinks doc name).indexOf s ≤ (imageLinks doc name).indexOf t ↔
        (rawImageSrcs doc name).indexOf s ≤ (rawImageSrcs doc name).indexOf t)) := by
  refine ⟨fun s => mem_imageLinks_iff doc name s, imageLinks_nodup doc name, ?_, ?_⟩
  · intro s hs
    exact List.count_eq_one_of_mem (imageLinks_nodup doc name)
      ((mem_imageLinks_iff doc name s).mpr hs)
  · intro s t hs ht
    exact indexOf_dedupKeysAux_mono (rawImageSrcs doc name) [] s t hs ht
      (by simp) (by simp)

/-- Witness for claim C6 at a concrete document where one source value
occurs twice. -/
theorem candidates_dedup_first_seen_witness :
    rawImageSrcs dupImagesDoc "Ike" =
      ["/b-ike.png", "/a-ike.png", "/b-ike.png", "/c-ike.png"] ∧
    imageLinks dupImagesDoc "Ike" = ["/b-ike.png", "/a-ike.png", "/c-ike.png"] ∧
    (imageLinks dupImagesDoc "Ike").count "/b-ike.png" = 1 ∧
    ((imageLinks dupImagesDoc "Ike").indexOf "/b-ike.png" ≤
        (imageLinks dupImagesDoc "Ike").indexOf "/c-ike.png" ↔
      (rawImageSrcs dupImagesDoc "Ike").indexOf "/b-ike.png" ≤
        (rawImageSrcs dupImagesDoc "Ike").indexOf "/c-ike.png") :=
  ⟨by decide, by decide,
   (candidates_dedup_first_seen dupImagesDoc "Ike").2.2.1 "/b-ike.png" (by decide),
   (candidates_dedup_first_seen dupImagesDoc "Ike").2.2.2 "/b-ike.png" "/c-ike.png"
     (by decide) (by decide)⟩

/-- Folding append over a list with a seed equals the concatenation of
the list appended with the seed. -/
theorem foldr_append_seed (s : String) :
    ∀ (l : List String), l.foldr (· ++ ·) s = concatAll l ++ s := by
  intro l
  induction l with
  | nil =>
      simp only [List.foldr_nil, concatAll]
      exact (String.empty_append s).symm
  | cons x xs ih =>
      simp only [List.foldr_cons, concatAll] at ih ⊢
      rw [ih, String.append_assoc]

/-- Concatenation distributes over list append. -/
theorem concatAll_append (a b : List String) :
    concatAll (a ++ b) = concatAll a ++ concatAll b := by
  rw [concatAll, List.foldr_append]
  exact foldr_append_seed (concatAll b) a

mutual
/-- BeautifulSoup get_text computes the concatenation of all text
nodes of the fragment in reading order. -/
theorem getText_eq_concat : ∀ (n : Node), getText n = concatAll (textNodes n)
  | .text s => by
      rw [getText, textNodes, concatAll]
      simp only [List.foldr_cons, List.foldr_nil]
      exact (String.append_empty s).symm
  | .elem t a cs => by
      rw [getText, textNodes]
      exact getTextList_eq_concat cs

/-- Forest version of the flattening equivalence. -/
theorem getTextList_eq_concat :
    ∀ (cs : List Node), getTextList cs = concatAll (textNodesList cs)
  | [] => by rw [getTextList, textNodesList]; rfl
  | c :: cs => by
      rw [getTextList, textNodesList, getText_eq_concat c,
        getTextList_eq_concat cs]
      exact (concatAll_append _ _).symm
end

/-- Claim C7: the titles extractor normalizes each matched item by
concatenating all nested text nodes in reading order, so a title split
between a leading text node and a child link concatenates to the full
string, and a normalized text is appended only when it is non-empty. -/
theorem titles_concatenate_and_skip_empty :
    (∀ (n : Node), getText n = concatAll (textNodes n)) ∧
    (∀ (doc : Node) (ts : List String), parseTitles doc = some ts →
      ts = ((titleItems doc).map getText).filter (fun t => !(t == "")) ∧
      "" ∉ ts) ∧
    getText (.elem "li" [] [.text "Prince of ",
      .elem "a" [("href", "/Altea")] [.text "Altea"]]) = "Prince of Altea" ∧
    parseTitles splitTitleDoc = some ["Prince of Altea"] := by
  refine ⟨getText_eq_concat, ?_, by decide, by decide⟩
  intro doc ts h
  rw [parseTitles] at h
  cases hE : (((titleItems doc).map getText).filter (fun t => !(t == ""))).isEmpty with
  | true => rw [hE] at h; simp at h
  | false =>
      rw [hE] at h
      simp only [Bool.false_eq_true, if_false] at h
      have := Option.some.inj h
      subst this
      refine ⟨rfl, ?_⟩
      intro hmem
      have := (List.mem_filter.mp hmem).2
      simp at this

/-- Witness for claim C7 at a concrete document whose single title is
split between a text node and a link element. -/
theorem titles_concatenate_and_skip_empty_witness :
    parseTitles splitTitleDoc = some ["Prince of Altea"] ∧
    ["Prince of Altea"] =
      ((titleItems splitTitleDoc).map getText).filter (fun t => !(t == "")) ∧
    "" ∉ ["Prince of Altea"] :=
  ⟨by decide,
   (titles_concatenate_and_skip_empty.2.1 splitTitleDoc ["Prince of Altea"]
     (by decide)).1,
   (titles_concatenate_and_skip_empty.2.1 splitTitleDoc ["Prince of Altea"]
     (by decide)).2⟩

/-- Claim C8: the appearances extractor collects, in document order,
exactly the title-attribute values of the links inside the data cell of
a row labeled Appearance; a link without a title attribute contributes
no entry at all, even if it has visible text. -/
theorem appearances_exactly_title_attrs :
    (∀ doc : Node, appearances doc = appearancesSpec doc) ∧
    appearances appearancesDoc = ["Fire Emblem: Three Houses"] ∧
    parseAppearances appearancesDoc = some ["Fire Emblem: Three Houses"] := by
  refine ⟨?_, by decide, by decide⟩
  intro doc
  rw [appearances, appearancesSpec, select]
  have hpred : ∀ e ∈ docEntries doc,
      pathMatch [Step.desc (labeledRow "Appearance"), Step.child (tagIs "td"),
        Step.desc (tagIs "a")] (e.anc ++ [e.node]) =
      (e.node.isTag "a" &&
        adjPairB (labeledRow "Appearance") (tagIs "td") e.anc) := by
    intro e _
    rw [pathMatch_desc_child_desc, Bool.and_comm]
    rfl
  rw [List.filter_congr hpred]

/-- Claim C10: in the fallback branch of the titles extractor only
paragraph elements that are direct children of the data cell of a row
labeled Title are considered; a paragraph nested deeper inside the cell
contributes no title. -/
theorem titles_fallback_direct_children :
    (∀ doc : Node, titlePItems doc = titlePSpec doc) ∧
    (titleLiItems nestedParagraphDoc).isEmpty = true ∧
    parseTitles nestedParagraphDoc = none ∧
    (titleLiItems directParagraphDoc).isEmpty = true ∧
    parseTitles directParagraphDoc = some ["Shallow title"] := by
  refine ⟨?_, by decide, by decide, by decide, by decide⟩
  intro doc
  rw [titlePItems, titlePSpec, select]
  have hpred : ∀ e ∈ docEntries doc,
      pathMatch [Step.desc (labeledRow "Title"), Step.child (tagIs "td"),
        Step.child (tagIs "p")] (e.anc ++ [e.node]) =
      (e.node.isTag "p" && lastTwoB (labeledRow "Title") (tagIs "td") e.anc) := by
    intro e _
    rw [pathMatch_desc_child_child, Bool.and_comm]
    rfl
  rw [List.filter_congr hpred]

/-- Counterexample to claim C3: in a Voice row holding two anchors
before one small annotation, the spider collects both anchors for
English, although only the second is immediately followed by the
annotation; the following-sibling query accepts any later sibling. -/
theorem voice_actors_not_immediate_only :
    voiceActorsFor vaSiblingDoc "English" = ["X", "Y"] ∧
    voiceActorsImmediate vaSiblingDoc "English" = ["Y"] ∧
    parseVoiceActors vaSiblingDoc = some ⟨some ["X", "Y"], none⟩ ∧
    voiceActorsFor vaSiblingDoc "English" ≠
      voiceActorsImmediate vaSiblingDoc "English" :=
  ⟨by decide, by decide, by decide, by decide⟩

/-- Claim C3 as amended: each language pass collects the text of
exactly those anchors in the data cell of a row labeled Voice that are
followed, anywhere later among their siblings, by a small element one
of whose direct text nodes contains the language tag; results go under
the english and japanese keys, a language with zero matches contributes
no key, and with both empty the voiceActors field is omitted. -/
theorem voice_actors_any_later_sibling :
    (∀ (doc : Node) (lang : String),
      voiceActorsFor doc lang = voiceActorsSib doc lang) ∧
    (∀ doc : Node,
      (parseVoiceActors doc = none ↔
        voiceActorsFor doc "English" = [] ∧
          voiceActorsFor doc "Japanese" = []) ∧
      (∀ va, parseVoiceActors doc = some va →
        va.english = (if (voiceActorsFor doc "English").isEmpty then none
          else some (voiceActorsFor doc "English")) ∧
        va.japanese = (if (voiceActorsFor doc "Japanese").isEmpty then none
          else some (voiceActorsFor doc "Japanese")))) := by
  constructor
  · intro doc lang
    rw [voiceActorsFor, voiceActorsSib, voiceAnchorEntries, select,
      List.filter_filter]
    have hpred : ∀ e ∈ docEntries doc,
        (followedBySmall lang e &&
          pathMatch [Step.desc (labeledRow "Voice"), Step.child (tagIs "td"),
            Step.desc (tagIs "a")] (e.anc ++ [e.node])) =
        (e.node.isTag "a" &&
          adjPairB (labeledRow "Voice") (tagIs "td") e.anc &&
          followedBySmall lang e) := by
      intro e _
      rw [pathMatch_desc_child_desc]
      cases h1 : e.node.isTag "a" <;>
        cases h2 : adjPairB (labeledRow "Voice") (tagIs "td") e.anc <;>
        cases h3 : followedBySmall lang e <;>
        simp [tagIs, h1, h2, h3]
    rw [List.filter_congr hpred]
  · intro doc
    constructor
    · have hiff : parseVoiceActors doc = none ↔
          ((voiceActorsFor doc "English").isEmpty &&
            (voiceActorsFor doc "Japanese").isEmpty) = true := by
        simp only [parseVoiceActors]
        cases h : ((voiceActorsFor doc "English").isEmpty &&
            (voiceActorsFor doc "Japanese").isEmpty) <;> simp [h]
      rw [hiff, Bool.and_eq_true, List.isEmpty_iff, List.isEmpty_iff]
    · intro va hva
      simp only [parseVoiceActors] at hva
      cases hE : (voiceActorsFor doc "English").isEmpty with
      | true =>
          cases hJ : (voiceActorsFor doc "Japanese").isEmpty with
          | true => simp [hE, hJ] at hva
          | false =>
              simp [hE, hJ] at hva
              subst hva
              simp [hE, hJ]
      | false =>
          cases hJ : (voiceActorsFor doc "Japanese").isEmpty with
          | true =>
              simp [hE, hJ] at hva
              subst hva
              simp [hE, hJ]
          | false =>
              simp [hE, hJ] at hva
              subst hva
              simp [hE, hJ]

/-- Witness for the amended claim C3 at the concrete two-anchor
document. -/
theorem voice_actors_any_later_sibling_witness :
    parseVoiceActors vaSiblingDoc = some ⟨some ["X", "Y"], none⟩ ∧
    (VoiceActors.mk (some ["X", "Y"]) none).english =
      (if (voiceActorsFor vaSiblingDoc "English").isEmpty then none
        else some (voiceActorsFor vaSiblingDoc "English")) ∧
    (VoiceActors.mk (some ["X", "Y"]) none).japanese =
      (if (voiceActorsFor vaSiblingDoc "Japanese").isEmpty then none
        else some (voiceActorsFor vaSiblingDoc "Japanese")) :=
  ⟨by decide,
   ((voice_actors_any_later_sibling.2 vaSiblingDoc).2
     ⟨some ["X", "Y"], none⟩ (by decide)).1,
   ((voice_actors_any_later_sibling.2 vaSiblingDoc).2
     ⟨some ["X", "Y"], none⟩ (by decide)).2⟩

/-- Counterexample to claim C4: an anchor placed in the category group
container but not inside a list item yields no detail URL, although the
claim promises one detail URL for every anchor inside the container. -/
theorem detail_links_require_list_item :
    claimDetailHrefs groupAnchorDoc = ["/Corrin"] ∧
    (parseListing groupAnchorDoc).1 = [] ∧
    (parseListing groupAnchorDoc).1 ≠
      (claimDetailHrefs groupAnchorDoc).map (fun l => BASE_URL ++ l) :=
  ⟨by decide, by decide, by decide⟩

/-- Claim C4 as amended: link discovery yields one absolute detail URL
for every anchor with an href inside a list item within the category
group of the listing container, in document order, and at most one
next-page URL: the first href carried by an anchor under the listing
container whose leading text contains the word next, kept only when
that href is non-empty; with no such anchor no next-page URL is
produced, and the next-page URL does not depend on the detail links. -/
theorem listing_links_characterization :
    (∀ doc : Node, (parseListing doc).1 =
      (detailAnchorHrefs doc).map (fun l => BASE_URL ++ l)) ∧
    (∀ doc : Node, (parseListing doc).2 =
      (match (nextHrefs doc).head? with
       | some l => if l == "" then none else some (BASE_URL ++ l)
       | none => none)) := by
  constructor
  · intro doc
    have hchar : characterLinks doc = detailAnchorHrefs doc := by
      rw [characterLinks, detailAnchorHrefs, select]
      have hpred : ∀ e ∈ docEntries doc,
          pathMatch [Step.desc divPages, Step.desc divGroup,
            Step.desc (tagIs "li"), Step.desc (tagIs "a")]
            (e.anc ++ [e.node]) =
          (e.node.isTag "a" &&
            subseqMatch [divPages, divGroup, tagIs "li"] e.anc) := by
        intro e _
        rw [show [Step.desc divPages, Step.desc divGroup,
            Step.desc (tagIs "li"), Step.desc (tagIs "a")] =
          (List.map Step.desc [divPages, divGroup, tagIs "li"] ++
            [Step.desc (tagIs "a")]) from rfl]
        rw [pathMatch_desc_chain, Bool.and_comm]
        rfl
      rw [List.filter_congr hpred]
    rw [parseListing, hchar]
  · intro doc
    have hnext : nextPageLink doc = (nextHrefs doc).head? := by
      rw [nextPageLink, nextHrefs, select]
      have hpred : ∀ e ∈ docEntries doc,
          pathMatch [Step.desc divPages, Step.desc nextAnchor]
            (e.anc ++ [e.node]) =
          (nextAnchor e.node && e.anc.any divPages) := by
        intro e _
        rw [show [Step.desc divPages, Step.desc nextAnchor] =
          (List.map Step.desc [divPages] ++ [Step.desc nextAnchor]) from rfl]
        rw [pathMatch_desc_chain, subseqMatch_singleton, Bool.and_comm]
      rw [List.filter_congr hpred]
    rw [parseListing, hnext]
    cases hh : (nextHrefs doc).head? with
    | none => rfl
    | some l =>
        cases hl : (l == "") with
        | true =>
            have : l = "" := eq_of_beq hl
            subst this
            rfl
        | false =>
            simp [strTruthy, hl]
